import Mathlib

/-!  Shallow embedding of the GitHub-backed storage layer of Empire:
path sanitization (`PathJoin`), the configuration codec
(`treeEntries` / `loadApp`), the release committer (`ReleasesCreate`),
the release history reader (`Releases`) and the app registry
(`Apps` / `AppsFind`).  The remote Git API and the external file codecs
(dotenv, image references, JSON) are modelled explicitly as parameters
or, where the repository code is not shown, modelled from the spec.
Strings are modelled as lists of characters (Go strings are byte
strings; every input of interest here is valid UTF-8, over which the
two views agree byte for byte after UTF-8 encoding). -/

set_option autoImplicit false

abbrev Str := List Char

/-- The directory separator used with the GitHub API (constant
`DirectorySeparator = "/"` in the source). -/
def sepChar : Char := '/'

/-- Characters Go's `url.QueryEscape` leaves unescaped (RFC 3986
unreserved characters). -/
def isUnreserved (c : Char) : Bool :=
  ('A' ≤ c && c ≤ 'Z') || ('a' ≤ c && c ≤ 'z') || ('0' ≤ c && c ≤ '9') ||
    c == '-' || c == '_' || c == '.' || c == '~'

def hexChars : Str := ("0123456789ABCDEF").toList

def hexDigit (n : Nat) : Char := hexChars.getD n '0'

/-- Percent-encoding of one byte, uppercase hex as Go emits it. -/
def percentByte (b : Nat) : Str := ['%', hexDigit (b / 16 % 16), hexDigit (b % 16)]

/-- UTF-8 bytes of a code point; Go's `url.QueryEscape` walks the bytes
of the string. -/
def utf8Bytes (n : Nat) : List Nat :=
  if n < 128 then [n]
  else if n < 2048 then [192 + n / 64, 128 + n % 64]
  else if n < 65536 then [224 + n / 4096, 128 + n / 64 % 64, 128 + n % 64]
  else [240 + n / 262144, 128 + n / 4096 % 64, 128 + n / 64 % 64, 128 + n % 64]

/-- Escaping of a single character under Go's `url.QueryEscape`. -/
def escapeChar (c : Char) : Str :=
  if isUnreserved c then [c]
  else if c == ' ' then ['+']
  else (utf8Bytes c.toNat).flatMap percentByte

/-- Go `url.QueryEscape`. -/
def QueryEscape (s : Str) : Str := s.flatMap escapeChar

/-- `PathJoin` from the source: each component is query-escaped
independently, then everything is joined with the directory
separator (`strings.Join(append([]string{basepath}, cleaned...), "/")`). -/
def PathJoin (basepath : Str) (elem : List Str) : Str :=
  List.intercalate [sepChar] (basepath :: elem.map QueryEscape)

/-- One path segment's effect on directory depth during lexical
resolution: `..` pops a level, `.` and the empty segment are neutral,
anything else descends. -/
def segDelta (s : Str) : Int :=
  if s = ['.', '.'] then -1 else if s = ['.'] || s = [] then 0 else 1

/-- Running a list of path segments from depth `d`, checking the depth
never drops below zero (i.e. lexical resolution never climbs above the
starting directory). -/
def segKeepsDepth : List Str → Int → Bool
  | [], _ => true
  | s :: rest, d =>
    if d + segDelta s < 0 then false else segKeepsDepth rest (d + segDelta s)

/-- `p` is lexically under `base`: it equals `base`, or extends it past
one separator with a suffix whose lexical resolution (`.`/`..`
processing) never escapes `base`. -/
def lexicallyUnder (base p : Str) : Bool :=
  p == base ||
    ((base ++ [sepChar]).isPrefixOf p &&
      segKeepsDepth ((p.drop (base.length + 1)).splitOn sepChar) 0)

/-- Whitespace as trimmed by Go's `strings.TrimSpace` (ASCII cases;
the Unicode space classes are not exercised by this code). -/
def isSpaceChar (c : Char) : Bool :=
  c.toNat == 32 || (9 ≤ c.toNat && c.toNat ≤ 13)

/-- Go `strings.TrimSpace` (over the ASCII whitespace set). -/
def TrimSpace (s : Str) : Str :=
  ((s.dropWhile isSpaceChar).reverse.dropWhile isSpaceChar).reverse

def isDigitChar (c : Char) : Bool := 48 ≤ c.toNat && c.toNat ≤ 57

/-- Numeric value of a digit string (meaningful when all characters are
decimal digits). -/
def digitsVal (s : Str) : Nat :=
  List.foldl (fun a c => a * 10 + (c.toNat - 48)) 0 s

def digitChar (n : Nat) : Char := (("0123456789").toList).getD n '0'

/-- Fuel-driven digit production (structural recursion, so that the
kernel can evaluate it; the fuel `n + 1` below always suffices). -/
def natDigitsAux : Nat → Nat → Str
  | 0, _ => []
  | fuel + 1, n =>
    if n < 10 then [digitChar n] else natDigitsAux fuel (n / 10) ++ [digitChar (n % 10)]

/-- Decimal digits of a natural number, most significant first, as
produced by Go's `fmt.Sprintf("%d", _)` and `strconv`. -/
def natDigits (n : Nat) : Str := natDigitsAux (n + 1) n

/-- Decimal representation of a Go `int` (`%d` verb). -/
def intRepr (v : Int) : Str :=
  match v with
  | .ofNat n => natDigits n
  | .negSucc m => '-' :: natDigits (m + 1)

/-- Digit-run parser shared by the `Atoi` model: all-digit, non-empty. -/
def natPart (t : Str) : Option Nat :=
  if !t.isEmpty && t.all isDigitChar then some (digitsVal t) else none

/-- Go `strconv.Atoi`: optional sign followed by a non-empty digit run.
(The int64 range error of the real function is not modelled; no claim
exercises it.) -/
def Atoi (s : Str) : Option Int :=
  match s with
  | [] => none
  | c :: rest =>
    if c = '+' then (natPart rest).map Int.ofNat
    else if c = '-' then (natPart rest).map (fun n => -(n : Int))
    else (natPart s).map Int.ofNat

/-! ## Data model (`empire.App`, `empire.Release`, GitHub objects) -/
/-- Environment variables (`map[string]string` in Go, modelled as an
association list). -/
abbrev Env := List (Str × Str)

/-- Container image reference (`pkg/image.Image`), identified by its
canonical string form. -/
structure Image where
  repr : Str
  deriving DecidableEq, Repr

/-- Process formation: process-type name to scaling parameter
(`map[string]Process` in Go, modelled as an association list). -/
abbrev Formation := List (Str × Nat)

structure App where
  name : Str
  version : Int
  environment : Option Env
  image : Option Image
  formation : Option Formation
  deriving DecidableEq, Repr

structure Release where
  app : App
  description : Str
  createdAt : Option Int
  deriving DecidableEq, Repr

/-- A `github.TreeEntry` as built by the encoder. -/
structure TreeEntry where
  path : Str
  typ : Str
  mode : Str
  content : Str
  deriving DecidableEq, Repr

structure Storage where
  owner : Str
  repo : Str
  basePath : Str
  ref : Str
  deriving DecidableEq, Repr

structure AppsQuery where
  name : Option Str
  deriving DecidableEq, Repr

structure ReleasesQuery where
  app : App
  deriving DecidableEq, Repr

/-- Go errors as they matter here: `empire.NotFoundError` is a distinct
type; everything else is carried by its message (wrapping with
`fmt.Errorf` flattens causes into text). -/
inductive GoErr where
  | notFound (msg : Str)
  | generic (msg : Str)
  deriving DecidableEq, Repr

def errMsg : GoErr → Str
  | .notFound m => m
  | .generic m => m

/-- Result of a Go function returning `(T, error)`, with runtime panics
made explicit. -/
inductive GoResult (α : Type) where
  | ok (a : α)
  | err (e : GoErr)
  | panic (msg : Str)
  deriving DecidableEq, Repr

/-- The `%q` verb of `fmt` (escaping of special characters inside the
quoted string is not needed for the paths this code formats). -/
def goQuote (s : Str) : Str := '"' :: s ++ ['"']

def FileVersion : Str := ("VERSION").toList

def FileEnv : Str := ("app.env").toList

def FileImage : Str := ("image.txt").toList

def FileServices : Str := ("services.json").toList

def BlobPerms : Str := ("100644").toList

def blobType : Str := ("blob").toList

structure DirEntry where
  typ : Str
  name : Str
  deriving DecidableEq, Repr

instance {ε α : Type} [DecidableEq ε] [DecidableEq α] : DecidableEq (Except ε α) := fun a b =>
  match a, b with
  | .ok x, .ok y =>
    if h : x = y then isTrue (by rw [h]) else isFalse fun hh => h (Except.ok.inj hh)
  | .ok _, .error _ => isFalse fun hh => Except.noConfusion hh
  | .error _, .ok _ => isFalse fun hh => Except.noConfusion hh
  | .error x, .error y =>
    if h : x = y then isTrue (by rw [h]) else isFalse fun hh => h (Except.error.inj hh)

/-- What `GetContents` yields: a file (whose base64 decoding may fail)
or a directory listing. -/
inductive Contents where
  | file (decoded : Except Str Str)
  | dir (entries : List DirEntry)
  deriving DecidableEq, Repr

/-- The `contentFetcher` interface: a variadic `GetContents`. -/
abbrev Fetcher := List Str → Except Str Contents

structure CommitMeta where
  sha : Str
  message : Str
  date : Int
  deriving DecidableEq, Repr

structure RefObj where
  sha : Str
  deriving DecidableEq, Repr

structure CommitObj where
  sha : Str
  treeSha : Str
  deriving DecidableEq, Repr

/-- One remote GitHub API call, recorded for reasoning about which
remote operations a run performs. -/
inductive RemoteCall where
  | getRef (ref : Str)
  | getCommit (sha : Str)
  | createTree (base : Str) (entries : List TreeEntry)
  | createCommit (message : Str) (tree : Str) (parents : List Str)
  | merge (base : Str) (head : Str)
  deriving DecidableEq, Repr

/-- The remote Git object API (external collaborator), modelled as a
deterministic oracle. -/
structure Remote where
  getRef : Str → Except Str RefObj
  getCommit : Str → Except Str CommitObj
  createTree : Str → List TreeEntry → Except Str Str
  createCommit : Str → Str → List Str → Except Str CommitObj
  merge : Str → Str → Except Str Unit
  listCommits : Str → Str → Except Str (List CommitMeta)
  getContents : Str → Str → Except Str Contents

/-- Every remote call of the release-commit protocol succeeds. -/
def Remote.allOk (R : Remote) : Prop :=
  (∀ r, ∃ x, R.getRef r = .ok x) ∧
  (∀ sha, ∃ c, R.getCommit sha = .ok c) ∧
  (∀ t es, ∃ sha, R.createTree t es = .ok sha) ∧
  (∀ m t ps, ∃ c, R.createCommit m t ps = .ok c) ∧
  (∀ b h, R.merge b h = .ok ())

/-! ## External file codecs

`pkg/dotenv`, `pkg/image` and the `encoding/json` behaviour on the
formation map are code this repository relies on but which is not under
`src/`; the functions below are modelled from the spec.  The storage
layer itself is parametric in the codec (`ExtCodec`), mirroring how the
Go file delegates to imported packages. -/
/-- The external serialization interface used by `treeEntries` and
`loadApp`: dotenv write/read, image string/decode, and JSON
marshal/unmarshal of the formation (unmarshal may yield `none` for a
JSON `null`, as Go leaves the map nil). -/
structure ExtCodec where
  dotenvWrite : Env → Except Str Str
  dotenvRead : Str → Except Str Env
  imageString : Image → Str
  imageDecode : Str → Except Str Image
  formationMarshal : Formation → Except Str Str
  formationUnmarshal : Str → Except Str (Option Formation)

def dotenvNeedsQuote (v : Str) : Bool :=
  v.any fun c => c == '\n' || c == '"' || c == '#'

def dotenvEscVal (v : Str) : Str :=
  v.flatMap fun c =>
    if c = '"' then ['\\', '"'] else if c = '\n' then ['\\', 'n'] else [c]

/-- A value requiring escaping is quoted (spec §4.2). -/
def dotenvValue (v : Str) : Str :=
  if dotenvNeedsQuote v then '"' :: dotenvEscVal v ++ ['"'] else v

/-- Modelled from the spec: `pkg/dotenv.Write` (not under `src/`).
Spec §4.2: the env file holds "one `KEY=VALUE` line per entry, values
requiring escaping are quoted", and encoding can fail on
"codec-specific serialization errors (e.g., malformed environment
values)" — here, an entry whose key cannot be written. -/
def specDotenvWrite : Env → Except Str Str
  | [] => .ok []
  | (k, v) :: rest =>
    if k.isEmpty || k.any (fun c => c = '=' || isSpaceChar c || c = '"' || c = '#') then
      .error (("malformed environment entry").toList)
    else
      (specDotenvWrite rest).map fun tail => (k ++ '=' :: dotenvValue v) ++ '\n' :: tail

def splitFirstEq : Str → Option (Str × Str)
  | [] => none
  | c :: rest =>
    if c = '=' then some ([], rest)
    else (splitFirstEq rest).map fun p => (c :: p.1, p.2)

def dotenvUnesc : Str → Str
  | [] => []
  | '\\' :: 'n' :: r => '\n' :: dotenvUnesc r
  | '\\' :: '"' :: r => '"' :: dotenvUnesc r
  | c :: r => c :: dotenvUnesc r

def dotenvUnquote (v : Str) : Str :=
  match v with
  | '"' :: rest => dotenvUnesc rest.dropLast
  | _ => v

def parseEnvLine (l : Str) : Except Str (Str × Str) :=
  match splitFirstEq l with
  | none => .error (("can not parse environment line").toList)
  | some (k, v) => .ok (k, dotenvUnquote v)

/-- Modelled from the spec: `pkg/dotenv.Read` (not under `src/`), the
inverse direction of the env-file format ("malformed env syntax" is a
decode error). -/
def specDotenvRead (s : Str) : Except Str Env :=
  ((s.splitOn '\n').filter fun l => !l.isEmpty).mapM parseEnvLine

/-- Modelled from the spec: `pkg/image` canonical string form (not
under `src/`); `image.txt` holds a "single-line canonical image
reference". -/
def specImageString (i : Image) : Str := i.repr

/-- Modelled from the spec: `pkg/image.Decode` (not under `src/`); a
"malformed image reference" is a decode error. -/
def specImageDecode (s : Str) : Except Str Image :=
  if s.isEmpty || s.any isSpaceChar then
    .error (("invalid image reference").toList)
  else .ok ⟨s⟩

def jsonLine (e : Str × Nat) : Str :=
  ("  \"").toList ++ e.1 ++ ("\": ").toList ++ natDigits e.2

/-- Modelled from the spec: `encoding/json.MarshalIndent(v, "", "  ")`
on the formation map — "JSON-encoded with two-space indentation, stable
key ordering". -/
def specFormationMarshal (f : Formation) : Except Str Str :=
  match f with
  | [] => .ok (("{}").toList)
  | _ => .ok ('{' :: '\n' :: List.intercalate ((",\n").toList) (f.map jsonLine) ++ ['\n', '}'])

def parseKeyChars : Str → Option (Str × Str)
  | [] => none
  | c :: rest =>
    if c = '"' then some ([], rest)
    else (parseKeyChars rest).map fun p => (c :: p.1, p.2)

def parseNatChars : Str → Str × Str
  | [] => ([], [])
  | c :: rest =>
    if isDigitChar c then
      let p := parseNatChars rest
      (c :: p.1, p.2)
    else ([], c :: rest)

def parseJsonEntry (s : Str) : Option ((Str × Nat) × Str) :=
  match s with
  | ' ' :: ' ' :: '"' :: r =>
    match parseKeyChars r with
    | none => none
    | some (k, r1) =>
      match r1 with
      | ':' :: ' ' :: r2 =>
        let p := parseNatChars r2
        if p.1.isEmpty then none else some ((k, digitsVal p.1), p.2)
      | _ => none
  | _ => none

def parseJsonEntries : Nat → Str → Option (Formation × Str)
  | 0, _ => none
  | fuel + 1, s =>
    match parseJsonEntry s with
    | none => none
    | some (e, r) =>
      match r with
      | ',' :: '\n' :: r2 => (parseJsonEntries fuel r2).map fun p => (e :: p.1, p.2)
      | _ => some ([e], r)

/-- Modelled from the spec: `encoding/json.Unmarshal` into the
formation map (the grammar `MarshalIndent` emits, plus `null` for a nil
map).  Its error messages, like the real ones, carry no file path. -/
def specFormationUnmarshal (s : Str) : Except Str (Option Formation) :=
  let t := TrimSpace s
  if t = ("null").toList then .ok none
  else if t = ("{}").toList then .ok (some [])
  else
    match t with
    | '{' :: '\n' :: r =>
      match parseJsonEntries (r.length + 1) r with
      | none => .error (("invalid character in JSON input").toList)
      | some (f, rest) =>
        if rest = ['\n', '}'] then .ok (some f)
        else .error (("invalid character in JSON input").toList)
    | _ => .error (("unexpected end of JSON input").toList)

/-- The spec-modelled codec instance, used to instantiate the
parametric theorems at concrete inputs. -/
def specCodec : ExtCodec where
  dotenvWrite := specDotenvWrite
  dotenvRead := specDotenvRead
  imageString := specImageString
  imageDecode := specImageDecode
  formationMarshal := specFormationMarshal
  formationUnmarshal := specFormationUnmarshal

/-! ## Content fetching and the configuration codec (decode side) -/
/-- Panic message of a Go nil-pointer dereference (`fileContent` on a
directory listing calls `Decode` on a nil `*RepositoryContent`). -/
def nilDerefMsg : Str :=
  ("runtime error: invalid memory address or nil pointer dereference").toList

/-- Panic message of `s[1:]` on a string shorter than one byte. -/
def sliceOOBMsg : Str := ("runtime error: slice bounds out of range").toList

/-- Error message of `strconv.Atoi` on invalid syntax. -/
def atoiErrMsg (t : Str) : Str :=
  ("strconv.Atoi: parsing ").toList ++ goQuote t ++ (": invalid syntax").toList

/-- `fileContent` from the source: fetch a path and decode the blob,
wrapping either failure with the offending path. -/
def fileContent (f : Fetcher) (path : Str) : GoResult Str :=
  match f [path] with
  | .error e =>
    .err (.generic (("get contents of ").toList ++ goQuote path ++ (": ").toList ++ e))
  | .ok (.dir _) => .panic nilDerefMsg
  | .ok (.file (.error e)) =>
    .err (.generic (("decoding ").toList ++ goQuote path ++ (": ").toList ++ e))
  | .ok (.file (.ok raw)) => .ok raw

/-- `decodeFile` from the source, at the one type it is used with: note
the `json.Unmarshal` error is returned unwrapped, without the path. -/
def decodeFile (C : ExtCodec) (f : Fetcher) (path : Str) : GoResult (Option Formation) :=
  match fileContent f path with
  | .err e => .err e
  | .panic m => .panic m
  | .ok raw =>
    match C.formationUnmarshal raw with
    | .error e => .err (.generic e)
    | .ok v => .ok v

/-- An `empire.App` holding only a name (`&empire.App{Name: n}`). -/
def namedApp (n : Str) : App :=
  { name := n, version := 0, environment := none, image := none, formation := none }

/-- `loadApp` from the source: read VERSION (dropping one character
before `Atoi`, panicking on an empty trimmed content), then
services.json, image.txt and app.env, in that order. -/
def loadApp (C : ExtCodec) (f : Fetcher) (app0 : App) : GoResult App :=
  match fileContent f (PathJoin app0.name [FileVersion]) with
  | .err e => .err e
  | .panic m => .panic m
  | .ok version =>
    match TrimSpace version with
    | [] => .panic sliceOOBMsg
    | _ :: tail =>
      match Atoi tail with
      | none => .err (.generic (atoiErrMsg tail))
      | some vi =>
        let app1 := { app0 with version := vi }
        match decodeFile C f (PathJoin app1.name [FileServices]) with
        | .err e => .err e
        | .panic m => .panic m
        | .ok fo =>
          let app2 := { app1 with formation := fo }
          match fileContent f (PathJoin app2.name [FileImage]) with
          | .err e => .err e
          | .panic m => .panic m
          | .ok imageContent =>
            match C.imageDecode imageContent with
            | .error e => .err (.generic e)
            | .ok img =>
              let app3 := { app2 with image := some img }
              match fileContent f (PathJoin app3.name [FileEnv]) with
              | .err e => .err e
              | .panic m => .panic m
              | .ok envContent =>
                match C.dotenvRead envContent with
                | .error e => .err (.generic e)
                | .ok env => .ok { app3 with environment := some env }

/-- `GetContentsAtRef` from the source: the fetcher bound to one
reference; the requested elements are joined under `BasePath` with
`s.Path`. -/
def storageFetcher (R : Remote) (s : Storage) (ref : Str) : Fetcher :=
  fun elems => R.getContents ref (PathJoin s.basePath elems)

/-! ## Configuration codec (encode side) -/
/-- The unconditional VERSION entry: content `fmt.Sprintf("v%d", Version)`. -/
def versionEntry (s : Storage) (app : App) : TreeEntry :=
  { path := PathJoin s.basePath [app.name, FileVersion]
    typ := blobType, mode := BlobPerms
    content := 'v' :: intRepr app.version }

/-- The optional app.env entry (present when `Environment` is non-nil;
its serialization can fail). -/
def envEntries (C : ExtCodec) (s : Storage) (app : App) : Except GoErr (List TreeEntry) :=
  match app.environment with
  | none => .ok []
  | some ev =>
    match C.dotenvWrite ev with
    | .error e => .error (.generic e)
    | .ok content =>
      .ok [{ path := PathJoin s.basePath [app.name, FileEnv]
             typ := blobType, mode := BlobPerms, content := content }]

/-- The optional image.txt entry (present when `Image` is non-nil;
`Image.String()` cannot fail). -/
def imageEntries (C : ExtCodec) (s : Storage) (app : App) : List TreeEntry :=
  match app.image with
  | none => []
  | some im =>
    [{ path := PathJoin s.basePath [app.name, FileImage]
       typ := blobType, mode := BlobPerms, content := C.imageString im }]

/-- The optional services.json entry (present when `Formation` is
non-nil; JSON marshalling can fail). -/
def servicesEntries (C : ExtCodec) (s : Storage) (app : App) : Except GoErr (List TreeEntry) :=
  match app.formation with
  | none => .ok []
  | some fo =>
    match C.formationMarshal fo with
    | .error e => .error (.generic e)
    | .ok content =>
      .ok [{ path := PathJoin s.basePath [app.name, FileServices]
             typ := blobType, mode := BlobPerms, content := content }]

/-- `treeEntries` from the source: VERSION always, then app.env,
image.txt and services.json in that order when their fields are
non-nil; the first serialization failure aborts (the env error is
checked before the formation marshal, as in the Go control flow). -/
def treeEntries (C : ExtCodec) (s : Storage) (app : App) : Except GoErr (List TreeEntry) :=
  match envEntries C s app with
  | .error e => .error e
  | .ok envE =>
    match servicesEntries C s app with
    | .error e => .error e
    | .ok svcE =>
      .ok (versionEntry s app :: (envE ++ imageEntries C s app ++ svcE))

/-! ## Release committer -/
/-- `ReleasesCreate` from the source, with the remote calls the run
performs recorded in order.  The version is incremented in memory
first; then ref lookup, base-commit fetch, tree entry construction,
tree creation, commit creation, and merge, each aborting the sequence
on failure with the source's error wrapping. -/
def ReleasesCreate (R : Remote) (C : ExtCodec) (s : Storage) (app0 : App)
    (description : Str) : GoResult Release × List RemoteCall :=
  let app := { app0 with version := app0.version + 1 }
  let t1 := [RemoteCall.getRef s.ref]
  match R.getRef s.ref with
  | .error e =>
    (.err (.generic (("get ").toList ++ goQuote s.ref ++ (" ref: ").toList ++ e)), t1)
  | .ok ref =>
    let t2 := t1 ++ [RemoteCall.getCommit ref.sha]
    match R.getCommit ref.sha with
    | .error e =>
      (.err (.generic (("get last commit for ").toList ++ goQuote ref.sha ++
        (": ").toList ++ e)), t2)
    | .ok lastCommit =>
      match treeEntries C s app with
      | .error e =>
        (.err (.generic (("generating tree: ").toList ++ errMsg e)), t2)
      | .ok entries =>
        let t3 := t2 ++ [RemoteCall.createTree lastCommit.treeSha entries]
        match R.createTree lastCommit.treeSha entries with
        | .error e =>
          (.err (.generic (("creating tree: ").toList ++ e)), t3)
        | .ok treeSha =>
          let t4 := t3 ++ [RemoteCall.createCommit description treeSha [lastCommit.sha]]
          match R.createCommit description treeSha [lastCommit.sha] with
          | .error e =>
            (.err (.generic (("creating commit: ").toList ++ e)), t4)
          | .ok commit =>
            let t5 := t4 ++ [RemoteCall.merge s.ref commit.sha]
            match R.merge s.ref commit.sha with
            | .error e =>
              (.err (.generic (("merging ").toList ++ goQuote commit.sha ++
                (" into ").toList ++ goQuote s.ref ++ (": ").toList ++ e)), t5)
            | .ok _ =>
              (.ok { app := app, description := description, createdAt := none }, t5)

/-- `n` consecutive `ReleasesCreate` calls, each starting from the
application returned by the previous release. -/
def ReleasesCreateN (R : Remote) (C : ExtCodec) (s : Storage) (d : Str) :
    Nat → App → GoResult App
  | 0, a => .ok a
  | n + 1, a =>
    match (ReleasesCreate R C s a d).1 with
    | .ok rel => ReleasesCreateN R C s d n rel.app
    | .err e => .err e
    | .panic m => .panic m

/-! ## Release history reader and app registry -/
/-- The loop body of `Releases`: decode each commit with a fetcher
bound to that commit's SHA, stopping at the first failure. -/
def releasesLoop (R : Remote) (C : ExtCodec) (s : Storage) (n : Str) :
    List CommitMeta → GoResult (List Release)
  | [] => .ok []
  | c :: rest =>
    match loadApp C (storageFetcher R s c.sha) (namedApp n) with
    | .err e => .err e
    | .panic m => .panic m
    | .ok a =>
      match releasesLoop R C s n rest with
      | .err e => .err e
      | .panic m => .panic m
      | .ok rs => .ok ({ app := a, description := c.message, createdAt := some c.date } :: rs)

/-- `Releases` from the source: list the commits touching the app's
VERSION file under the target ref, then reconstruct one release per
commit, in the order the commit-log query returned. -/
def Releases (R : Remote) (C : ExtCodec) (s : Storage) (q : ReleasesQuery) :
    GoResult (List Release) :=
  match R.listCommits s.ref (PathJoin s.basePath [q.app.name, FileVersion]) with
  | .error e => .err (.generic e)
  | .ok commits => releasesLoop R C s q.app.name commits

/-- `filterApps` from the source (with the `filter` helper inlined):
optional exact-match on name. -/
def filterApps (apps : List App) (q : AppsQuery) : List App :=
  match q.name with
  | none => apps
  | some n => apps.filter fun a => a.name == n

/-- `Apps` from the source: list the base path at the target ref, keep
the directories as name-only apps, filter.  (When the base path is a
file, the directory listing is nil and the loop yields no apps.) -/
def Apps (R : Remote) (s : Storage) (q : AppsQuery) : Except GoErr (List App) :=
  match R.getContents s.ref (PathJoin s.basePath []) with
  | .error e =>
    .error (.generic (("get contents of ").toList ++ goQuote s.basePath ++
      (" in ").toList ++ goQuote s.ref ++ (": ").toList ++ e))
  | .ok (.file _) => .ok (filterApps [] q)
  | .ok (.dir ds) =>
    .ok (filterApps
      (ds.filterMap fun f => if f.typ == ("dir").toList then some (namedApp f.name) else none) q)

/-- `AppsFind` from the source: a dedicated `NotFoundError` on zero
matches, otherwise hydrate the first match through `loadApp` with the
storage's own fetcher (bound to the configured ref). -/
def AppsFind (R : Remote) (C : ExtCodec) (s : Storage) (q : AppsQuery) : GoResult App :=
  match Apps R s q with
  | .error e => .err e
  | .ok apps =>
    match apps with
    | [] => .err (.notFound (("app not found").toList))
    | a :: _ => loadApp C (storageFetcher R s s.ref) a

/-! ## Concrete fixtures for witnesses and counterexamples -/
def webName : Str := ("web").toList

def dDesc : Str := ("deployed v2").toList

def sB : Storage :=
  { owner := ("remind101").toList, repo := ("config").toList
    basePath := ("base").toList, ref := ("refs/heads/master").toList }

/-- The end-to-end scenario application of spec §8: name `web`,
version 0, environment `FOO=bar`, no image, no formation. -/
def webApp : App :=
  { name := webName, version := 0
    environment := some [(("FOO").toList, ("bar").toList)]
    image := none, formation := none }

/-- A fully populated application (all optional fields non-nil). -/
def fullApp : App :=
  { name := webName, version := 3
    environment := some [(("FOO").toList, ("bar").toList)]
    image := some ⟨("remind101/acme-inc:latest").toList⟩
    formation := some [(("web").toList, 2)] }

/-- An application whose environment cannot be serialized (the key
contains `=`), making `treeEntries` fail. -/
def badApp : App :=
  { webApp with environment := some [(("FOO=BAD").toList, ("x").toList)] }

def sha0 : Str := ("sha0").toList

def tree0 : Str := ("tree0").toList

def shaA : Str := ("shaA").toList

def shaB : Str := ("shaB").toList

/-- A remote on which every call of the release-commit protocol
succeeds (content fetching is not part of that protocol). -/
def okRemote : Remote :=
  { getRef := fun _ => .ok ⟨sha0⟩
    getCommit := fun _ => .ok ⟨sha0, tree0⟩
    createTree := fun _ _ => .ok (("tree1").toList)
    createCommit := fun _ _ _ => .ok ⟨("sha1").toList, ("tree1").toList⟩
    merge := fun _ _ => .ok ()
    listCommits := fun _ _ => .ok []
    getContents := fun _ _ => .error (("Not Found").toList) }

/-- A fetcher serving the four per-application files at the paths
`loadApp` requests (`PathJoin name [file]` as the single element). -/
def serveApp (vc sc ic ec : Str) : Fetcher := fun elems =>
  if elems = [PathJoin webName [FileVersion]] then .ok (.file (.ok vc))
  else if elems = [PathJoin webName [FileServices]] then .ok (.file (.ok sc))
  else if elems = [PathJoin webName [FileImage]] then .ok (.file (.ok ic))
  else if elems = [PathJoin webName [FileEnv]] then .ok (.file (.ok ec))
  else .error (("Not Found").toList)

/-- Fetcher serving back exactly the contents `treeEntries` produces
for `fullApp`. -/
def fullFetcher : Fetcher :=
  serveApp ('v' :: intRepr 3) (("\x7b\n  \"web\": 2\n\x7d").toList)
    (("remind101/acme-inc:latest").toList) (("FOO=bar\n").toList)

/-- Fetcher whose VERSION content `x5` does not carry a `v` prefix. -/
def noVFetcher : Fetcher :=
  serveApp (("x5").toList) (("{}").toList) (("img:a").toList) []

/-- Fetcher whose services.json content is malformed JSON. -/
def badJsonFetcher : Fetcher :=
  serveApp (("v2").toList) (("\x7b").toList) (("img:a").toList) []

/-- Fetcher whose VERSION content trims to the empty string. -/
def blankVersionFetcher : Fetcher :=
  serveApp (("  ").toList) (("{}").toList) (("img:a").toList) []

/-- Fetcher whose VERSION content is `v` followed by non-digits. -/
def vAbcFetcher : Fetcher :=
  serveApp (("vabc").toList) (("{}").toList) (("img:a").toList) []

/-- The full repository path of one of `web`'s files as the storage
fetcher requests it (note the inner `PathJoin` result is escaped again
as a single component). -/
def fullPathOf (file : Str) : Str := PathJoin sB.basePath [PathJoin webName [file]]

/-- Contents of one historical commit of `web`, addressed by full path. -/
def serveCommit (vc : Str) (p : Str) : Except Str Contents :=
  if p = fullPathOf FileVersion then .ok (.file (.ok vc))
  else if p = fullPathOf FileServices then .ok (.file (.ok (("{}").toList)))
  else if p = fullPathOf FileImage then .ok (.file (.ok (("img:a").toList)))
  else if p = fullPathOf FileEnv then .ok (.file (.ok (("FOO=bar\n").toList)))
  else .error (("Not Found").toList)

def commitA : CommitMeta := { sha := shaA, message := ("second release").toList, date := 200 }

def commitB : CommitMeta := { sha := shaB, message := ("first release").toList, date := 100 }

/-- Remote with two commits touching `web`'s VERSION file: `shaA`
holds `v2`, `shaB` holds `v1`. -/
def historyRemote : Remote :=
  { okRemote with
    listCommits := fun _ _ => .ok [commitA, commitB]
    getContents := fun ref p =>
      if ref = shaA then serveCommit ('v' :: intRepr 2) p
      else serveCommit ('v' :: intRepr 1) p }

/-- The application state decoded from either historical commit. -/
def historyApp (v : Int) : App :=
  { name := webName, version := v
    environment := some [(("FOO").toList, ("bar").toList)]
    image := some ⟨("img:a").toList⟩, formation := some [] }

/-- Remote whose base-path listing has one app directory `web` (plus a
stray file), and which serves `web`'s files at the configured ref. -/
def registryRemote : Remote :=
  { okRemote with
    getContents := fun ref p =>
      if ref = sB.ref && p = PathJoin sB.basePath [] then
        .ok (.dir [{ typ := ("dir").toList, name := webName },
                   { typ := ("file").toList, name := ("README.md").toList }])
      else serveCommit ('v' :: intRepr 7) p }

def q9 : AppsQuery := { name := some webName }

/-- The four entries `treeEntries` produces for `fullApp`. -/
def fullEntries : List TreeEntry :=
  [{ path := ("base/web/VERSION").toList, typ := blobType, mode := BlobPerms
     content := ("v3").toList },
   { path := ("base/web/app.env").toList, typ := blobType, mode := BlobPerms
     content := ("FOO=bar\n").toList },
   { path := ("base/web/image.txt").toList, typ := blobType, mode := BlobPerms
     content := ("remind101/acme-inc:latest").toList },
   { path := ("base/web/services.json").toList, typ := blobType, mode := BlobPerms
     content := ("\x7b\n  \"web\": 2\n\x7d").toList }]

/-- Expected decoded application per historical commit (`shaA` holds
`v2`, anything else `v1`). -/
def g8 : CommitMeta → App := fun c => if c.sha = shaA then historyApp 2 else historyApp 1

/-! ## Theorems -/

theorem digitsVal_append (l : Str) (c : Char) :
    digitsVal (l ++ [c]) = 10 * digitsVal l + (c.toNat - 48) := by
  simp [digitsVal, List.foldl_append, Nat.mul_comm]

theorem digitChar_val (n : Nat) (h : n < 10) : (digitChar n).toNat - 48 = n := by
  interval_cases n <;> decide

theorem digitChar_isDigit (n : Nat) (h : n < 10) : isDigitChar (digitChar n) = true := by
  interval_cases n <;> decide

theorem natDigitsAux_spec :
    ∀ f : Nat, 1 ≤ f → ∀ n : Nat, n < 10 ^ f →
      digitsVal (natDigitsAux f n) = n ∧ natDigitsAux f n ≠ [] ∧
        (natDigitsAux f n).all isDigitChar = true := by
  intro f
  induction f with
  | zero => omega
  | succ f ih =>
    intro _ n hn
    simp only [natDigitsAux]
    by_cases h10 : n < 10
    · rw [if_pos h10]
      refine ⟨?_, by simp, by simp [digitChar_isDigit n h10]⟩
      simpa [digitsVal] using digitChar_val n h10
    · rw [if_neg h10]
      have hf1 : 1 ≤ f := by
        rcases Nat.eq_zero_or_pos f with rfl | hf
        · simp at hn; omega
        · exact hf
      have hdiv : n / 10 < 10 ^ f := by
        have hpow : (10 : Nat) ^ (f + 1) = 10 ^ f * 10 := by ring
        rw [hpow] at hn
        exact (Nat.div_lt_iff_lt_mul (by omega)).mpr hn
      obtain ⟨hv, hne, hall⟩ := ih hf1 (n / 10) hdiv
      refine ⟨?_, by simp, ?_⟩
      · rw [digitsVal_append, hv, digitChar_val (n % 10) (Nat.mod_lt n (by omega))]
        omega
      · rw [List.all_append, hall]
        simp [digitChar_isDigit (n % 10) (Nat.mod_lt n (by omega))]

theorem natDigits_spec (n : Nat) :
    digitsVal (natDigits n) = n ∧ natDigits n ≠ [] ∧
      (natDigits n).all isDigitChar = true := by
  apply natDigitsAux_spec (n + 1) (by omega) n
  calc n < 10 ^ n := Nat.lt_pow_self (by omega) n
  _ ≤ 10 ^ (n + 1) := Nat.pow_le_pow_right (by omega) (by omega)

theorem natDigits_ne_nil (n : Nat) : natDigits n ≠ [] := (natDigits_spec n).2.1

theorem digitsVal_natDigits (n : Nat) : digitsVal (natDigits n) = n := (natDigits_spec n).1

theorem natDigits_all_digits (n : Nat) : (natDigits n).all isDigitChar = true :=
  (natDigits_spec n).2.2

theorem natPart_natDigits (n : Nat) : natPart (natDigits n) = some n := by
  have h1 := natDigits_ne_nil n
  have h2 := natDigits_all_digits n
  simp [natPart, h2, List.isEmpty_iff, h1, digitsVal_natDigits]

theorem natDigits_head_digit (n : Nat) {c : Char} {t : Str}
    (h : natDigits n = c :: t) : isDigitChar c = true := by
  have := natDigits_all_digits n
  rw [h] at this
  simp only [List.all_cons, Bool.and_eq_true] at this
  exact this.1

/-- `Atoi` inverts the decimal representation: the key arithmetic fact
behind VERSION round-tripping. -/
theorem Atoi_intRepr (v : Int) : Atoi (intRepr v) = some v := by
  match v with
  | .ofNat n =>
    show Atoi (natDigits n) = some (Int.ofNat n)
    cases hnd : natDigits n with
    | nil => exact absurd hnd (natDigits_ne_nil n)
    | cons c t =>
      have hc : isDigitChar c = true := natDigits_head_digit n hnd
      have hplus : c ≠ '+' := by
        intro h; rw [h] at hc; exact absurd hc (by decide)
      have hminus : c ≠ '-' := by
        intro h; rw [h] at hc; exact absurd hc (by decide)
      have := natPart_natDigits n
      rw [hnd] at this
      simp [Atoi, hplus, hminus, this]
  | .negSucc m =>
    show Atoi ('-' :: natDigits (m + 1)) = some (Int.negSucc m)
    simp [Atoi, natPart_natDigits (m + 1), Int.negSucc_eq]

/-! ## Lemmas about escaping and path joining -/
theorem utf8Bytes_ne_nil (n : Nat) : utf8Bytes n ≠ [] := by
  unfold utf8Bytes
  split
  · simp
  · split
    · simp
    · split <;> simp

theorem escapeChar_ne_nil (c : Char) : escapeChar c ≠ [] := by
  unfold escapeChar
  split
  · simp
  · split
    · simp
    · cases hb : utf8Bytes c.toNat with
      | nil => exact absurd hb (utf8Bytes_ne_nil c.toNat)
      | cons b bs => simp [percentByte]

theorem hexDigit_ne_sep (n : Nat) : hexDigit n ≠ sepChar := by
  rcases Nat.lt_or_ge n 16 with h | h
  · unfold hexDigit
    interval_cases n <;> decide
  · unfold hexDigit
    rw [List.getD_eq_default]
    · decide
    · have : hexChars.length = 16 := by decide
      omega

theorem mem_percentByte_ne_sep (b : Nat) : ∀ c ∈ percentByte b, c ≠ sepChar := by
  intro c hc
  simp only [percentByte, List.mem_cons, List.mem_singleton, List.not_mem_nil] at hc
  rcases hc with h | h | h
  · rw [h]; decide
  · rw [h]; exact hexDigit_ne_sep _
  · rcases h with h | h
    · rw [h]; exact hexDigit_ne_sep _
    · exact absurd h (by simp)

theorem mem_escapeChar_ne_sep (c : Char) : ∀ d ∈ escapeChar c, d ≠ sepChar := by
  intro d hd
  unfold escapeChar at hd
  split at hd
  · next hun =>
    simp only [List.mem_singleton] at hd
    subst hd
    intro hcs
    rw [hcs] at hun
    exact absurd hun (by decide)
  · split at hd
    · simp only [List.mem_singleton] at hd
      subst hd; decide
    · simp only [List.mem_flatMap] at hd
      obtain ⟨b, _, hb⟩ := hd
      exact mem_percentByte_ne_sep b d hb

theorem sep_not_mem_QueryEscape (e : Str) : sepChar ∉ QueryEscape e := by
  intro hmem
  simp only [QueryEscape, List.mem_flatMap] at hmem
  obtain ⟨c, _, hc⟩ := hmem
  exact mem_escapeChar_ne_sep c sepChar hc rfl

theorem QueryEscape_nil : QueryEscape [] = [] := rfl

theorem QueryEscape_cons (c : Char) (cs : Str) :
    QueryEscape (c :: cs) = escapeChar c ++ QueryEscape cs := by
  simp [QueryEscape]

theorem QueryEscape_eq_nil {e : Str} (h : QueryEscape e = []) : e = [] := by
  cases e with
  | nil => rfl
  | cons c cs =>
    rw [QueryEscape_cons] at h
    exact absurd (List.append_eq_nil.mp h).1 (escapeChar_ne_nil c)

theorem escapeChar_dot {c : Char} {t : Str} (h : escapeChar c = '.' :: t) :
    c = '.' ∧ t = [] := by
  unfold escapeChar at h
  split at h
  · simp only [List.cons.injEq] at h
    exact ⟨h.1, h.2.symm⟩
  · split at h
    · simp only [List.cons.injEq] at h
      exact absurd h.1 (by decide)
    · cases hb : utf8Bytes c.toNat with
      | nil => exact absurd hb (utf8Bytes_ne_nil c.toNat)
      | cons b bs =>
        rw [hb] at h
        simp only [List.flatMap_cons, percentByte, List.cons_append, List.cons.injEq] at h
        exact absurd h.1 (by decide)

/-- Only the component `..` itself escapes to `..`: dots are unreserved
and survive `QueryEscape` unchanged, and nothing else can produce them. -/
theorem QueryEscape_eq_dotdot {e : Str} (h : QueryEscape e = ['.', '.']) :
    e = ['.', '.'] := by
  cases e with
  | nil => exact absurd h (by decide)
  | cons c cs =>
    rw [QueryEscape_cons] at h
    cases hec : escapeChar c with
    | nil => exact absurd hec (escapeChar_ne_nil c)
    | cons d ds =>
      rw [hec] at h
      simp only [List.cons_append, List.cons.injEq] at h
      obtain ⟨hd, hrest⟩ := h
      subst hd
      obtain ⟨hc, hds⟩ := escapeChar_dot hec
      subst hc hds
      simp only [List.nil_append] at hrest
      cases cs with
      | nil => exact absurd hrest (by decide)
      | cons c2 cs2 =>
        rw [QueryEscape_cons] at hrest
        cases hec2 : escapeChar c2 with
        | nil => exact absurd hec2 (escapeChar_ne_nil c2)
        | cons d2 ds2 =>
          rw [hec2] at hrest
          simp only [List.cons_append, List.cons.injEq] at hrest
          obtain ⟨hd2, hrest2⟩ := hrest
          subst hd2
          obtain ⟨hc2, hds2⟩ := escapeChar_dot hec2
          subst hc2 hds2
          simp only [List.nil_append] at hrest2
          have := QueryEscape_eq_nil hrest2
          subst this
          rfl

theorem intercalate_sep_cons (a : Str) (l : List Str) (h : l ≠ []) :
    List.intercalate [sepChar] (a :: l) = a ++ sepChar :: List.intercalate [sepChar] l := by
  cases l with
  | nil => exact absurd rfl h
  | cons b bs =>
    simp [List.intercalate, List.intersperse_cons_cons]

theorem PathJoin_nil (b : Str) : PathJoin b [] = b := by
  simp [PathJoin, List.intercalate]

theorem intercalate_cons_flatMap (b : Str) (parts : List Str) :
    List.intercalate [sepChar] (b :: parts) = b ++ parts.flatMap (fun p => sepChar :: p) := by
  induction parts generalizing b with
  | nil => simp [List.intercalate]
  | cons p ps ih =>
    rw [intercalate_sep_cons b (p :: ps) (by simp), ih p]
    simp

/-- The sanitized path is the base followed by exactly one separator
before each escaped component. -/
theorem PathJoin_flatMap (b : Str) (l : List Str) :
    PathJoin b l = b ++ l.flatMap (fun e => sepChar :: QueryEscape e) := by
  unfold PathJoin
  rw [intercalate_cons_flatMap]
  congr 1
  induction l with
  | nil => rfl
  | cons e es ih => simp [ih]

theorem isPrefixOf_append (l₁ l₂ : Str) : l₁.isPrefixOf (l₁ ++ l₂) = true := by
  induction l₁ with
  | nil => simp [List.isPrefixOf]
  | cons c cs ih => simp [List.isPrefixOf, ih]

theorem segKeepsDepth_of_no_dotdot (l : List Str) (d : Int) (hd : 0 ≤ d)
    (h : ∀ s ∈ l, s ≠ ['.', '.']) : segKeepsDepth l d = true := by
  induction l generalizing d with
  | nil => rfl
  | cons s rest ih =>
    have hs : s ≠ ['.', '.'] := h s (by simp)
    have hdelta : 0 ≤ segDelta s := by
      unfold segDelta
      split
      · next heq => exact absurd heq hs
      · split <;> norm_num
    unfold segKeepsDepth
    rw [if_neg (by omega)]
    exact ih (d + segDelta s) (by omega) (fun s' hs' => h s' (List.mem_cons_of_mem s hs'))

theorem dropWhile_eq_self_of {p : Char → Bool} {l : Str} (h : ∀ c ∈ l, p c = false) :
    l.dropWhile p = l := by
  cases l with
  | nil => rfl
  | cons c cs => simp [List.dropWhile_cons, h c (List.mem_cons_self c cs)]

theorem TrimSpace_no_space {l : Str} (h : ∀ c ∈ l, isSpaceChar c = false) :
    TrimSpace l = l := by
  unfold TrimSpace
  rw [dropWhile_eq_self_of h,
    dropWhile_eq_self_of (fun c hc => h c (List.mem_reverse.mp hc)),
    List.reverse_reverse]

theorem isDigit_not_space {c : Char} (h : isDigitChar c = true) : isSpaceChar c = false := by
  have h' : 48 ≤ c.toNat ∧ c.toNat ≤ 57 := by
    simpa [isDigitChar] using h
  simp only [isSpaceChar, Bool.or_eq_false_iff, Bool.and_eq_false_iff]
  constructor
  · simp only [beq_eq_false_iff_ne, ne_eq]
    omega
  · right
    simp only [decide_eq_false_iff_not]
    omega

theorem mem_natDigits_digit {n : Nat} {c : Char} (h : c ∈ natDigits n) :
    isDigitChar c = true :=
  List.all_eq_true.mp (natDigits_all_digits n) c h

theorem intRepr_no_space (v : Int) : ∀ c ∈ intRepr v, isSpaceChar c = false := by
  intro c hc
  match v with
  | .ofNat n => exact isDigit_not_space (mem_natDigits_digit hc)
  | .negSucc m =>
    rcases List.mem_cons.mp hc with h | h
    · rw [h]; decide
    · exact isDigit_not_space (mem_natDigits_digit h)

/-- The literal content `v<Version>` survives `TrimSpace` unchanged. -/
theorem TrimSpace_vRepr (v : Int) : TrimSpace ('v' :: intRepr v) = 'v' :: intRepr v := by
  apply TrimSpace_no_space
  intro c hc
  rcases List.mem_cons.mp hc with h | h
  · rw [h]; decide
  · exact intRepr_no_space v c h

theorem PathJoin_pair_inj {b n f1 f2 : Str} (h : PathJoin b [n, f1] = PathJoin b [n, f2]) :
    QueryEscape f1 = QueryEscape f2 := by
  rw [PathJoin_flatMap, PathJoin_flatMap] at h
  simp only [List.flatMap_cons, List.flatMap_nil, List.append_nil, List.cons_append,
    List.nil_append] at h
  have h1 := List.append_cancel_left h
  simp only [List.cons.injEq, true_and] at h1
  have h2 := List.append_cancel_left h1
  simp only [List.cons.injEq, true_and] at h2
  exact h2

/-- Two per-application file paths with distinct escaped file names are
distinct. -/
theorem PathJoin_file_ne {b n f1 f2 : Str} (hne : QueryEscape f1 ≠ QueryEscape f2) :
    PathJoin b [n, f1] ≠ PathJoin b [n, f2] :=
  fun h => hne (PathJoin_pair_inj h)

/-! ## Shape of the encoder's output -/
theorem treeEntries_shape {C : ExtCodec} {s : Storage} {app : App} {entries : List TreeEntry}
    (h : treeEntries C s app = .ok entries) :
    ∃ envE svcE, envEntries C s app = .ok envE ∧ servicesEntries C s app = .ok svcE ∧
      entries = versionEntry s app :: (envE ++ imageEntries C s app ++ svcE) := by
  unfold treeEntries at h
  split at h
  · exact absurd h (by simp)
  · next envE henv =>
    split at h
    · exact absurd h (by simp)
    · next svcE hsvc =>
      simp only [Except.ok.injEq] at h
      exact ⟨envE, svcE, henv, hsvc, h.symm⟩

theorem envEntries_none {C : ExtCodec} {s : Storage} {app : App}
    (h : app.environment = none) : envEntries C s app = .ok [] := by
  unfold envEntries
  rw [h]

theorem envEntries_some {C : ExtCodec} {s : Storage} {app : App} {envE : List TreeEntry}
    (h : envEntries C s app = .ok envE) {ev : Env} (he : app.environment = some ev) :
    ∃ content, C.dotenvWrite ev = .ok content ∧
      envE = [{ path := PathJoin s.basePath [app.name, FileEnv]
                typ := blobType, mode := BlobPerms, content := content }] := by
  unfold envEntries at h
  split at h
  · rename_i heq
    rw [he] at heq
    simp at heq
  · rename_i ev' heq
    rw [he] at heq
    simp only [Option.some.injEq] at heq
    subst heq
    split at h
    · simp at h
    · rename_i content hc
      simp only [Except.ok.injEq] at h
      exact ⟨content, hc, h.symm⟩

theorem servicesEntries_none {C : ExtCodec} {s : Storage} {app : App}
    (h : app.formation = none) : servicesEntries C s app = .ok [] := by
  unfold servicesEntries
  rw [h]

theorem servicesEntries_some {C : ExtCodec} {s : Storage} {app : App} {svcE : List TreeEntry}
    (h : servicesEntries C s app = .ok svcE) {fo : Formation} (hf : app.formation = some fo) :
    ∃ content, C.formationMarshal fo = .ok content ∧
      svcE = [{ path := PathJoin s.basePath [app.name, FileServices]
                typ := blobType, mode := BlobPerms, content := content }] := by
  unfold servicesEntries at h
  split at h
  · rename_i heq
    rw [hf] at heq
    simp at heq
  · rename_i fo' heq
    rw [hf] at heq
    simp only [Option.some.injEq] at heq
    subst heq
    split at h
    · simp at h
    · rename_i content hc
      simp only [Except.ok.injEq] at h
      exact ⟨content, hc, h.symm⟩

/-- Sanitized paths are lexically under the base whenever no component
is the bare `..` string (the only component whose escaped form is
`..`). -/
theorem lexicallyUnder_PathJoin (b : Str) (l : List Str)
    (h : ∀ e ∈ l, e ≠ ['.', '.']) : lexicallyUnder b (PathJoin b l) = true := by
  cases l with
  | nil =>
    rw [PathJoin_nil]
    simp [lexicallyUnder]
  | cons e es =>
    have hparts : ∀ pp ∈ (e :: es).map QueryEscape, sepChar ∉ pp := by
      intro pp hpp
      obtain ⟨e', _, rfl⟩ := List.mem_map.mp hpp
      exact sep_not_mem_QueryEscape e'
    have hne : (e :: es).map QueryEscape ≠ [] := by simp
    have hPJ : PathJoin b (e :: es) =
        (b ++ [sepChar]) ++ List.intercalate [sepChar] ((e :: es).map QueryEscape) := by
      unfold PathJoin
      rw [intercalate_sep_cons b _ hne]
      simp
    have h1 := isPrefixOf_append (b ++ [sepChar])
      (List.intercalate [sepChar] ((e :: es).map QueryEscape))
    have h2 : ((b ++ [sepChar]) ++
        List.intercalate [sepChar] ((e :: es).map QueryEscape)).drop (b.length + 1) =
        List.intercalate [sepChar] ((e :: es).map QueryEscape) := by
      have hlen : (b ++ [sepChar]).length = b.length + 1 := by simp
      rw [← hlen, List.drop_left]
    have h3 := List.splitOn_intercalate _ sepChar hparts hne
    have h4 : segKeepsDepth ((e :: es).map QueryEscape) 0 = true := by
      apply segKeepsDepth_of_no_dotdot _ 0 le_rfl
      intro pp hpp hdd
      obtain ⟨e', he', rfl⟩ := List.mem_map.mp hpp
      exact h e' he' (QueryEscape_eq_dotdot hdd)
    rw [hPJ]
    unfold lexicallyUnder
    rw [h1, h2, h3, h4]
    simp

/-! ## Unfolding lemmas for `loadApp` and `ReleasesCreate` -/
theorem fileContent_ok {f : Fetcher} {path raw : Str}
    (h : f [path] = .ok (.file (.ok raw))) : fileContent f path = .ok raw := by
  unfold fileContent
  rw [h]

theorem fileContent_fetch_error {f : Fetcher} {path e : Str} (h : f [path] = .error e) :
    fileContent f path =
      .err (.generic (("get contents of ").toList ++ goQuote path ++ (": ").toList ++ e)) := by
  unfold fileContent
  rw [h]

/-- Successful decode of all four files, step by step. -/
theorem loadApp_ok {C : ExtCodec} {f : Fetcher} {app0 : App} {vraw : Str} {vc : Char}
    {vtail : Str} {vi : Int} {fo : Option Formation} {iraw : Str} {img : Image}
    {eraw : Str} {env : Env}
    (h1 : fileContent f (PathJoin app0.name [FileVersion]) = .ok vraw)
    (h2 : TrimSpace vraw = vc :: vtail)
    (h3 : Atoi vtail = some vi)
    (h4 : decodeFile C f (PathJoin app0.name [FileServices]) = .ok fo)
    (h5 : fileContent f (PathJoin app0.name [FileImage]) = .ok iraw)
    (h6 : C.imageDecode iraw = .ok img)
    (h7 : fileContent f (PathJoin app0.name [FileEnv]) = .ok eraw)
    (h8 : C.dotenvRead eraw = .ok env) :
    loadApp C f app0 =
      .ok { app0 with version := vi, formation := fo
                      image := some img, environment := some env } := by
  simp only [loadApp, h1, h2, h3, h4, h5, h6, h7, h8]

theorem decodeFile_ok {C : ExtCodec} {f : Fetcher} {path raw : Str} {fo : Option Formation}
    (h1 : f [path] = .ok (.file (.ok raw))) (h2 : C.formationUnmarshal raw = .ok fo) :
    decodeFile C f path = .ok fo := by
  simp only [decodeFile, fileContent_ok h1, h2]

/-- A malformed file surfaces the raw unmarshal error, with no path
wrapping (`return json.Unmarshal(raw, &v)` in the source). -/
theorem decodeFile_raw_error {C : ExtCodec} {f : Fetcher} {path raw m : Str}
    (h1 : f [path] = .ok (.file (.ok raw))) (h2 : C.formationUnmarshal raw = .error m) :
    decodeFile C f path = .err (.generic m) := by
  simp only [decodeFile, fileContent_ok h1, h2]

theorem loadApp_fetch_error {C : ExtCodec} {f : Fetcher} {app0 : App} {e : Str}
    (h : f [PathJoin app0.name [FileVersion]] = .error e) :
    loadApp C f app0 = .err (.generic (("get contents of ").toList ++
      goQuote (PathJoin app0.name [FileVersion]) ++ (": ").toList ++ e)) := by
  simp only [loadApp, fileContent_fetch_error h]

theorem loadApp_empty_version {C : ExtCodec} {f : Fetcher} {app0 : App} {vraw : Str}
    (h1 : f [PathJoin app0.name [FileVersion]] = .ok (.file (.ok vraw)))
    (h2 : TrimSpace vraw = []) : loadApp C f app0 = .panic sliceOOBMsg := by
  simp only [loadApp, fileContent_ok h1, h2]

theorem loadApp_atoi_error {C : ExtCodec} {f : Fetcher} {app0 : App} {vraw : Str}
    {vc : Char} {vtail : Str}
    (h1 : f [PathJoin app0.name [FileVersion]] = .ok (.file (.ok vraw)))
    (h2 : TrimSpace vraw = vc :: vtail) (h3 : Atoi vtail = none) :
    loadApp C f app0 = .err (.generic (atoiErrMsg vtail)) := by
  simp only [loadApp, fileContent_ok h1, h2, h3]

/-- Any successful decode went through the version parse: some fetched
content whose trimmed form is non-empty, whose tail after dropping one
character parses, and whose parsed value is the resulting version. -/
theorem loadApp_ok_version {C : ExtCodec} {f : Fetcher} {app0 a : App}
    (h : loadApp C f app0 = .ok a) :
    ∃ vraw vc vtail vi, fileContent f (PathJoin app0.name [FileVersion]) = .ok vraw ∧
      TrimSpace vraw = vc :: vtail ∧ Atoi vtail = some vi ∧ a.version = vi := by
  simp only [loadApp] at h
  split at h
  · simp at h
  · simp at h
  · rename_i vraw hv
    split at h
    · simp at h
    · rename_i vc vtail ht
      split at h
      · simp at h
      · rename_i vi ha
        refine ⟨vraw, vc, vtail, vi, hv, ht, ha, ?_⟩
        split at h
        · simp at h
        · simp at h
        · rename_i fo hfo
          split at h
          · simp at h
          · simp at h
          · rename_i iraw hi
            split at h
            · simp at h
            · rename_i img himg
              split at h
              · simp at h
              · simp at h
              · rename_i eraw he
                split at h
                · simp at h
                · rename_i env henv
                  simp only [GoResult.ok.injEq] at h
                  rw [← h]

/-! ## The release history loop -/
theorem releasesLoop_ok (R : Remote) (C : ExtCodec) (s : Storage) (n : Str)
    (cs : List CommitMeta) (g : CommitMeta → App)
    (h : ∀ c ∈ cs, loadApp C (storageFetcher R s c.sha) (namedApp n) = .ok (g c)) :
    releasesLoop R C s n cs =
      .ok (cs.map fun c => { app := g c, description := c.message, createdAt := some c.date }) := by
  induction cs with
  | nil => rfl
  | cons c rest ih =>
    have hc := h c (List.mem_cons_self c rest)
    have hrest := ih fun c' hc' => h c' (List.mem_cons_of_mem c hc')
    simp only [releasesLoop, hc, hrest, List.map_cons]

theorem releasesLoop_fail (R : Remote) (C : ExtCodec) (s : Storage) (n : Str)
    (cs : List CommitMeta)
    (h : ∃ c ∈ cs, ∀ a, loadApp C (storageFetcher R s c.sha) (namedApp n) ≠ .ok a) :
    ∀ l, releasesLoop R C s n cs ≠ .ok l := by
  induction cs with
  | nil => simp at h
  | cons c rest ih =>
    intro l hl
    obtain ⟨c0, hc0mem, hc0⟩ := h
    rcases List.mem_cons.mp hc0mem with rfl | hmem
    · cases hload : loadApp C (storageFetcher R s c0.sha) (namedApp n) with
      | ok a => exact hc0 a hload
      | err e => rw [releasesLoop, hload] at hl; exact GoResult.noConfusion hl
      | panic m => rw [releasesLoop, hload] at hl; exact GoResult.noConfusion hl
    · cases hload : loadApp C (storageFetcher R s c.sha) (namedApp n) with
      | ok a =>
        rw [releasesLoop, hload] at hl
        cases hrest : releasesLoop R C s n rest with
        | ok rs => exact ih ⟨c0, hmem, hc0⟩ rs hrest
        | err e => rw [hrest] at hl; exact GoResult.noConfusion hl
        | panic m => rw [hrest] at hl; exact GoResult.noConfusion hl
      | err e => rw [releasesLoop, hload] at hl; exact GoResult.noConfusion hl
      | panic m => rw [releasesLoop, hload] at hl; exact GoResult.noConfusion hl

/-! ## Release committer machinery -/
/-- Encoding success does not depend on the version: only the VERSION
entry's content mentions it. -/
theorem treeEntries_version_irrel {C : ExtCodec} {s : Storage} {app : App}
    (h : ∃ es, treeEntries C s app = .ok es) (v : Int) :
    ∃ es, treeEntries C s { app with version := v } = .ok es := by
  obtain ⟨es, hes⟩ := h
  obtain ⟨envE, svcE, henv, hsvc, _⟩ := treeEntries_shape hes
  refine ⟨versionEntry s { app with version := v } ::
    (envE ++ imageEntries C s { app with version := v } ++ svcE), ?_⟩
  unfold treeEntries
  rw [show envEntries C s { app with version := v } = .ok envE from henv,
    show servicesEntries C s { app with version := v } = .ok svcE from hsvc]

/-- The successful five-step run of the release committer: result and
exact remote call trace. -/
theorem ReleasesCreate_ok {R : Remote} {C : ExtCodec} {s : Storage} {app0 : App} {d : Str}
    {r : RefObj} {lc : CommitObj} {entries : List TreeEntry} {tsha : Str} {cm : CommitObj}
    (h1 : R.getRef s.ref = .ok r)
    (h2 : R.getCommit r.sha = .ok lc)
    (h3 : treeEntries C s { app0 with version := app0.version + 1 } = .ok entries)
    (h4 : R.createTree lc.treeSha entries = .ok tsha)
    (h5 : R.createCommit d tsha [lc.sha] = .ok cm)
    (h6 : R.merge s.ref cm.sha = .ok ()) :
    ReleasesCreate R C s app0 d =
      (.ok { app := { app0 with version := app0.version + 1 }
             description := d, createdAt := none },
       [.getRef s.ref, .getCommit r.sha, .createTree lc.treeSha entries,
        .createCommit d tsha [lc.sha], .merge s.ref cm.sha]) := by
  simp only [ReleasesCreate, h1, h2, h3, h4, h5, h6]
  rfl

theorem ReleasesCreateN_ok (R : Remote) (C : ExtCodec) (s : Storage) (d : Str)
    (hok : R.allOk) : ∀ (n : Nat) (app : App), (∃ es, treeEntries C s app = .ok es) →
    ReleasesCreateN R C s d n app = .ok { app with version := app.version + n } := by
  intro n
  induction n with
  | zero =>
    intro app _
    cases app
    simp [ReleasesCreateN]
  | succ n ih =>
    intro app hen
    obtain ⟨r, hr⟩ := hok.1 s.ref
    obtain ⟨lc, hlc⟩ := hok.2.1 r.sha
    obtain ⟨entries, hentries⟩ := treeEntries_version_irrel hen (app.version + 1)
    obtain ⟨tsha, htree⟩ := hok.2.2.1 lc.treeSha entries
    obtain ⟨cm, hcm⟩ := hok.2.2.2.1 d tsha [lc.sha]
    have hmerge := hok.2.2.2.2 s.ref cm.sha
    have hstep := ReleasesCreate_ok hr hlc hentries htree hcm hmerge
    rw [ReleasesCreateN, hstep]
    dsimp only
    rw [ih { app with version := app.version + 1 }
      (treeEntries_version_irrel hen (app.version + 1))]
    congr 1
    cases app
    simp only [App.mk.injEq, true_and, and_true]
    push_cast
    ring

/-- Every entry the encoder emits sits at one of the four per-app file
paths, and an optional file's path occurs only when its field is
non-nil. -/
theorem treeEntries_paths {C : ExtCodec} {s : Storage} {app : App} {entries : List TreeEntry}
    (h : treeEntries C s app = .ok entries) :
    ∀ e ∈ entries, e.path = PathJoin s.basePath [app.name, FileVersion] ∨
      (e.path = PathJoin s.basePath [app.name, FileEnv] ∧ app.environment ≠ none) ∨
      (e.path = PathJoin s.basePath [app.name, FileImage] ∧ app.image ≠ none) ∨
      (e.path = PathJoin s.basePath [app.name, FileServices] ∧ app.formation ≠ none) := by
  obtain ⟨envE, svcE, henv, hsvc, hsh⟩ := treeEntries_shape h
  subst hsh
  intro e he
  rcases List.mem_cons.mp he with rfl | he
  · left; rfl
  rcases List.mem_append.mp he with he | hsvcmem
  rcases List.mem_append.mp he with henvmem | himgmem
  · cases happ : app.environment with
    | none =>
      rw [envEntries_none happ] at henv
      simp only [Except.ok.injEq] at henv
      rw [← henv] at henvmem
      exact absurd henvmem (List.not_mem_nil e)
    | some ev =>
      obtain ⟨content, _, hE⟩ := envEntries_some henv happ
      rw [hE] at henvmem
      simp only [List.mem_singleton] at henvmem
      subst henvmem
      right; left
      exact ⟨rfl, by simp [happ]⟩
  · unfold imageEntries at himgmem
    cases happ : app.image with
    | none => rw [happ] at himgmem; exact absurd himgmem (List.not_mem_nil e)
    | some im =>
      rw [happ] at himgmem
      simp only [List.mem_singleton] at himgmem
      subst himgmem
      right; right; left
      exact ⟨rfl, by simp [happ]⟩
  · cases happ : app.formation with
    | none =>
      rw [servicesEntries_none happ] at hsvc
      simp only [Except.ok.injEq] at hsvc
      rw [← hsvc] at hsvcmem
      exact absurd hsvcmem (List.not_mem_nil e)
    | some fo =>
      obtain ⟨content, _, hE⟩ := servicesEntries_some hsvc happ
      rw [hE] at hsvcmem
      simp only [List.mem_singleton] at hsvcmem
      subst hsvcmem
      right; right; right
      exact ⟨rfl, by simp [happ]⟩

theorem env_entry_mem {C : ExtCodec} {s : Storage} {app : App} {entries : List TreeEntry}
    {ev : Env} (h : treeEntries C s app = .ok entries) (happ : app.environment = some ev) :
    ∃ e ∈ entries, e.path = PathJoin s.basePath [app.name, FileEnv] := by
  obtain ⟨envE, svcE, henv, hsvc, hsh⟩ := treeEntries_shape h
  subst hsh
  obtain ⟨content, _, hE⟩ := envEntries_some henv happ
  refine ⟨{ path := PathJoin s.basePath [app.name, FileEnv], typ := blobType
            mode := BlobPerms, content := content }, ?_, rfl⟩
  rw [hE]
  simp

theorem img_entry_mem {C : ExtCodec} {s : Storage} {app : App} {entries : List TreeEntry}
    {im : Image} (h : treeEntries C s app = .ok entries) (happ : app.image = some im) :
    ∃ e ∈ entries, e.path = PathJoin s.basePath [app.name, FileImage] := by
  obtain ⟨envE, svcE, henv, hsvc, hsh⟩ := treeEntries_shape h
  subst hsh
  refine ⟨{ path := PathJoin s.basePath [app.name, FileImage], typ := blobType
            mode := BlobPerms, content := C.imageString im }, ?_, rfl⟩
  unfold imageEntries
  rw [happ]
  simp

theorem svc_entry_mem {C : ExtCodec} {s : Storage} {app : App} {entries : List TreeEntry}
    {fo : Formation} (h : treeEntries C s app = .ok entries) (happ : app.formation = some fo) :
    ∃ e ∈ entries, e.path = PathJoin s.basePath [app.name, FileServices] := by
  obtain ⟨envE, svcE, henv, hsvc, hsh⟩ := treeEntries_shape h
  subst hsh
  obtain ⟨content, _, hE⟩ := servicesEntries_some hsvc happ
  refine ⟨{ path := PathJoin s.basePath [app.name, FileServices], typ := blobType
            mode := BlobPerms, content := content }, ?_, rfl⟩
  rw [hE]
  simp

/-- C1: every successful encoding carries the VERSION entry with
content exactly `v` followed by the decimal version; an app.env,
image.txt or services.json entry is present exactly when the
corresponding field is non-nil; and the release-create sequence for the
`web`/version-0/`FOO=bar` application builds exactly the two entries
`base/web/VERSION` = `v1` and `base/web/app.env` = `FOO=bar\n`. -/
theorem treeEntries_spec (C : ExtCodec) (s : Storage) (app : App) (entries : List TreeEntry)
    (h : treeEntries C s app = .ok entries) :
    (versionEntry s app ∈ entries ∧
      (versionEntry s app).content = 'v' :: intRepr app.version) ∧
    ((∃ e ∈ entries, e.path = PathJoin s.basePath [app.name, FileEnv]) ↔
      app.environment ≠ none) ∧
    ((∃ e ∈ entries, e.path = PathJoin s.basePath [app.name, FileImage]) ↔
      app.image ≠ none) ∧
    ((∃ e ∈ entries, e.path = PathJoin s.basePath [app.name, FileServices]) ↔
      app.formation ≠ none) ∧
    (treeEntries specCodec sB { webApp with version := webApp.version + 1 } =
      .ok [{ path := ("base/web/VERSION").toList, typ := blobType, mode := BlobPerms
             content := ("v1").toList },
           { path := ("base/web/app.env").toList, typ := blobType, mode := BlobPerms
             content := ("FOO=bar\n").toList }] ∧
     RemoteCall.createTree tree0
       [{ path := ("base/web/VERSION").toList, typ := blobType, mode := BlobPerms
          content := ("v1").toList },
        { path := ("base/web/app.env").toList, typ := blobType, mode := BlobPerms
          content := ("FOO=bar\n").toList }] ∈
       (ReleasesCreate okRemote specCodec sB webApp dDesc).2) := by
  refine ⟨⟨?_, rfl⟩, ?_, ?_, ?_, by decide⟩
  · obtain ⟨envE, svcE, henv, hsvc, hsh⟩ := treeEntries_shape h
    subst hsh
    exact List.mem_cons_self _ _
  · constructor
    · rintro ⟨e, hmem, hpath⟩
      rcases treeEntries_paths h e hmem with hv | ⟨hp, hne⟩ | ⟨hp, hne⟩ | ⟨hp, hne⟩
      · exact absurd (PathJoin_pair_inj (hpath.symm.trans hv)) (by decide)
      · exact hne
      · exact absurd (PathJoin_pair_inj (hpath.symm.trans hp)) (by decide)
      · exact absurd (PathJoin_pair_inj (hpath.symm.trans hp)) (by decide)
    · intro hne
      obtain ⟨ev, hev⟩ := Option.ne_none_iff_exists'.mp hne
      exact env_entry_mem h hev
  · constructor
    · rintro ⟨e, hmem, hpath⟩
      rcases treeEntries_paths h e hmem with hv | ⟨hp, hne⟩ | ⟨hp, hne⟩ | ⟨hp, hne⟩
      · exact absurd (PathJoin_pair_inj (hpath.symm.trans hv)) (by decide)
      · exact absurd (PathJoin_pair_inj (hpath.symm.trans hp)) (by decide)
      · exact hne
      · exact absurd (PathJoin_pair_inj (hpath.symm.trans hp)) (by decide)
    · intro hne
      obtain ⟨im, him⟩ := Option.ne_none_iff_exists'.mp hne
      exact img_entry_mem h him
  · constructor
    · rintro ⟨e, hmem, hpath⟩
      rcases treeEntries_paths h e hmem with hv | ⟨hp, hne⟩ | ⟨hp, hne⟩ | ⟨hp, hne⟩
      · exact absurd (PathJoin_pair_inj (hpath.symm.trans hv)) (by decide)
      · exact absurd (PathJoin_pair_inj (hpath.symm.trans hp)) (by decide)
      · exact absurd (PathJoin_pair_inj (hpath.symm.trans hp)) (by decide)
      · exact hne
    · intro hne
      obtain ⟨fo, hfo⟩ := Option.ne_none_iff_exists'.mp hne
      exact svc_entry_mem h hfo

/-- Witness for C1 at `fullApp` with the spec-modelled codec. -/
theorem treeEntries_spec_witness :
    treeEntries specCodec sB fullApp = .ok fullEntries ∧
    ((∃ e ∈ fullEntries, e.path = PathJoin sB.basePath [fullApp.name, FileEnv]) ↔
      fullApp.environment ≠ none) :=
  ⟨by decide, (treeEntries_spec specCodec sB fullApp fullEntries (by decide)).2.1⟩

/-- C4 counterexample: the component `..` survives escaping (dots are
unreserved), so `PathJoin "base" [".."]` is `base/..`, which is not
lexically under `base`. -/
theorem PathJoin_dotdot_escapes :
    PathJoin (("base").toList) [("..").toList] = ("base/..").toList ∧
    lexicallyUnder (("base").toList) (PathJoin (("base").toList) [("..").toList]) = false := by
  decide

/-- C4 (amended): the sanitized path is the basepath followed by
exactly one separator before each escaped component; no component
contributes an unescaped separator; and the result is lexically under
the basepath whenever no component is the bare string `..` (which
survives escaping and can still climb out on lexical resolution). -/
theorem PathJoin_spec (b : Str) (l : List Str) :
    PathJoin b l = b ++ l.flatMap (fun e => sepChar :: QueryEscape e) ∧
    (∀ e ∈ l, sepChar ∉ QueryEscape e) ∧
    ((∀ e ∈ l, e ≠ ['.', '.']) → lexicallyUnder b (PathJoin b l) = true) :=
  ⟨PathJoin_flatMap b l, fun e _ => sep_not_mem_QueryEscape e, lexicallyUnder_PathJoin b l⟩

/-- Witness for C4 on the spec's own traversal example component. -/
theorem PathJoin_spec_witness :
    (∀ e ∈ [("a/../../etc").toList], e ≠ ['.', '.']) ∧
    lexicallyUnder (("base").toList)
      (PathJoin (("base").toList) [("a/../../etc").toList]) = true :=
  ⟨by decide, (PathJoin_spec (("base").toList) [("a/../../etc").toList]).2.2 (by decide)⟩

/-- Every remote call of `okRemote`'s release-commit protocol succeeds. -/
theorem okRemote_allOk : okRemote.allOk :=
  ⟨fun _ => ⟨⟨sha0⟩, rfl⟩, fun _ => ⟨⟨sha0, tree0⟩, rfl⟩,
   fun _ _ => ⟨("tree1").toList, rfl⟩,
   fun _ _ _ => ⟨⟨("sha1").toList, ("tree1").toList⟩, rfl⟩, fun _ _ => rfl⟩

/-- C2: decoding against a fetcher that serves back exactly the file
contents produced by encoding reconstructs the application — for every
storage, every fully populated application and every codec whose
dotenv, image and JSON legs round-trip on that application's values
(the external codec packages are modelled parametrically; the
spec-modelled `specCodec` instantiates them). -/
theorem loadApp_treeEntries_roundtrip
    (C : ExtCodec) (s : Storage) (app : App) (ev : Env) (im : Image) (fo : Formation)
    (ec fc : Str) (f : Fetcher)
    (henv : app.environment = some ev) (him : app.image = some im)
    (hfo : app.formation = some fo)
    (hdw : C.dotenvWrite ev = .ok ec) (hdr : C.dotenvRead ec = .ok ev)
    (hfm : C.formationMarshal fo = .ok fc) (hfu : C.formationUnmarshal fc = .ok (some fo))
    (hir : C.imageDecode (C.imageString im) = .ok im)
    (hfv : f [PathJoin app.name [FileVersion]] =
      .ok (.file (.ok ('v' :: intRepr app.version))))
    (hfs : f [PathJoin app.name [FileServices]] = .ok (.file (.ok fc)))
    (hfi : f [PathJoin app.name [FileImage]] = .ok (.file (.ok (C.imageString im))))
    (hfe : f [PathJoin app.name [FileEnv]] = .ok (.file (.ok ec))) :
    treeEntries C s app = .ok
      [versionEntry s app,
       { path := PathJoin s.basePath [app.name, FileEnv], typ := blobType
         mode := BlobPerms, content := ec },
       { path := PathJoin s.basePath [app.name, FileImage], typ := blobType
         mode := BlobPerms, content := C.imageString im },
       { path := PathJoin s.basePath [app.name, FileServices], typ := blobType
         mode := BlobPerms, content := fc }] ∧
    loadApp C f (namedApp app.name) = .ok app := by
  constructor
  · simp only [treeEntries, envEntries, servicesEntries, imageEntries,
      henv, him, hfo, hdw, hfm]
    rfl
  · have h2 : TrimSpace ('v' :: intRepr app.version) = 'v' :: intRepr app.version :=
      TrimSpace_vRepr app.version
    have hload := @loadApp_ok C f (namedApp app.name) ('v' :: intRepr app.version)
      'v' (intRepr app.version) app.version (some fo) (C.imageString im) im ec ev
      (fileContent_ok hfv) h2 (Atoi_intRepr app.version)
      (decodeFile_ok hfs hfu) (fileContent_ok hfi) hir (fileContent_ok hfe) hdr
    rw [hload]
    cases app with
    | mk n v envF imF foF =>
      simp only at henv him hfo
      subst henv him hfo
      rfl

/-- Witness for C2: the spec-modelled codec and `fullApp`, with the
fetcher serving the encoded contents. -/
theorem loadApp_treeEntries_roundtrip_witness :
    fullApp.environment = some [(("FOO").toList, ("bar").toList)] ∧
    loadApp specCodec fullFetcher (namedApp fullApp.name) = .ok fullApp :=
  ⟨by decide,
   (loadApp_treeEntries_roundtrip specCodec sB fullApp
      [(("FOO").toList, ("bar").toList)] ⟨("remind101/acme-inc:latest").toList⟩
      [(("web").toList, 2)] (("FOO=bar\n").toList) (("\x7b\n  \"web\": 2\n\x7d").toList)
      fullFetcher (by decide) (by decide) (by decide) (by decide) (by decide)
      (by decide) (by decide) (by decide) (by decide) (by decide) (by decide)
      (by decide)).2⟩

/-- C3 counterexample: every remote call succeeds, yet `ReleasesCreate`
on `badApp` (whose environment cannot be serialized) returns no
release — remote success alone does not imply the claimed contract. -/
theorem ReleasesCreate_remoteOk_not_sufficient :
    okRemote.allOk ∧
    ∀ rel, (ReleasesCreate okRemote specCodec sB badApp dDesc).1 ≠ .ok rel := by
  refine ⟨okRemote_allOk, fun rel h => ?_⟩
  have hval : (ReleasesCreate okRemote specCodec sB badApp dDesc).1 =
      .err (.generic (("generating tree: malformed environment entry").toList)) := by decide
  rw [hval] at h
  exact GoResult.noConfusion h

/-- C3 (amended): when encoding succeeds and every remote call
succeeds, `ReleasesCreate` returns a release wrapping the input
application with its version incremented by exactly one and the given
description; `n` consecutive such calls leave the version at `V0 + n`. -/
theorem ReleasesCreate_success_spec (R : Remote) (C : ExtCodec) (s : Storage)
    (app : App) (d : Str) (hok : R.allOk) (hen : ∃ es, treeEntries C s app = .ok es) :
    (∃ rel, (ReleasesCreate R C s app d).1 = .ok rel ∧
      rel.app = { app with version := app.version + 1 } ∧ rel.description = d) ∧
    (∀ n : Nat, ReleasesCreateN R C s d n app = .ok { app with version := app.version + n }) := by
  constructor
  · obtain ⟨r, hr⟩ := hok.1 s.ref
    obtain ⟨lc, hlc⟩ := hok.2.1 r.sha
    obtain ⟨entries, hentries⟩ := treeEntries_version_irrel hen (app.version + 1)
    obtain ⟨tsha, htree⟩ := hok.2.2.1 lc.treeSha entries
    obtain ⟨cm, hcm⟩ := hok.2.2.2.1 d tsha [lc.sha]
    have hmerge := hok.2.2.2.2 s.ref cm.sha
    have hstep := ReleasesCreate_ok hr hlc hentries htree hcm hmerge
    refine ⟨{ app := { app with version := app.version + 1 }
              description := d, createdAt := none }, ?_, rfl, rfl⟩
    rw [hstep]
  · intro n
    exact ReleasesCreateN_ok R C s d hok n app hen

/-- Witness for C3 (amended) on `webApp` against `okRemote`. -/
theorem ReleasesCreate_success_spec_witness :
    (∃ es, treeEntries specCodec sB webApp = .ok es) ∧
    (∃ rel, (ReleasesCreate okRemote specCodec sB webApp dDesc).1 = .ok rel ∧
      rel.app = { webApp with version := webApp.version + 1 } ∧
      rel.description = dDesc) :=
  ⟨⟨_, rfl⟩,
   (ReleasesCreate_success_spec okRemote specCodec sB webApp dDesc
      okRemote_allOk ⟨_, rfl⟩).1⟩

/-- C5 counterexample: with `badApp` the tree entries cannot be built,
yet the run has already performed two remote operations (ref lookup and
base-commit fetch) — the trace is not empty. -/
theorem ReleasesCreate_encodeFail_remote_reads :
    treeEntries specCodec sB { badApp with version := badApp.version + 1 } =
      .error (.generic (("malformed environment entry").toList)) ∧
    (ReleasesCreate okRemote specCodec sB badApp dDesc).2 =
      [RemoteCall.getRef sB.ref, RemoteCall.getCommit sha0] ∧
    (ReleasesCreate okRemote specCodec sB badApp dDesc).2 ≠ [] := by
  decide

/-- C5 (amended): if building the tree entries fails, `ReleasesCreate`
surfaces that error (wrapped as `generating tree:`) and performs no
remote write — no tree creation, commit creation or merge — but the
ref lookup and base-commit fetch have already been performed. -/
theorem ReleasesCreate_treeFail_spec (R : Remote) (C : ExtCodec) (s : Storage)
    (app : App) (d : Str) (e : GoErr) (r : RefObj) (lc : CommitObj)
    (hr : R.getRef s.ref = .ok r) (hlc : R.getCommit r.sha = .ok lc)
    (ht : treeEntries C s { app with version := app.version + 1 } = .error e) :
    (ReleasesCreate R C s app d).1 =
      .err (.generic (("generating tree: ").toList ++ errMsg e)) ∧
    (ReleasesCreate R C s app d).2 = [RemoteCall.getRef s.ref, RemoteCall.getCommit r.sha] := by
  simp only [ReleasesCreate, hr, hlc, ht]
  exact ⟨trivial, rfl⟩

/-- Witness for C5 (amended) on `badApp` against `okRemote`. -/
theorem ReleasesCreate_treeFail_spec_witness :
    okRemote.getRef sB.ref = .ok ⟨sha0⟩ ∧
    (ReleasesCreate okRemote specCodec sB badApp dDesc).2 =
      [RemoteCall.getRef sB.ref, RemoteCall.getCommit sha0] :=
  ⟨rfl,
   (ReleasesCreate_treeFail_spec okRemote specCodec sB badApp dDesc
      (.generic (("malformed environment entry").toList)) ⟨sha0⟩ ⟨sha0, tree0⟩
      rfl rfl (by decide)).2⟩

/-- C6 counterexample: VERSION content `x5` has no `v` prefix at all,
yet decoding succeeds with version 5 — the first character is skipped
unchecked, so failure is not characterized by "non-decimal suffix after
the `v` prefix". -/
theorem loadApp_accepts_missing_v_prefix :
    loadApp specCodec noVFetcher (namedApp webName) =
      .ok { name := webName, version := 5, environment := some []
            image := some ⟨("img:a").toList⟩, formation := some [] } ∧
    (∀ n : Int, TrimSpace (("x5").toList) ≠ 'v' :: intRepr n) := by
  refine ⟨by decide, fun n h => ?_⟩
  have ht : TrimSpace (("x5").toList) = ("x5").toList := by decide
  rw [ht] at h
  injection h with h1 h2
  exact absurd h1 (by decide)

/-- C6 (amended): the version step of `loadApp` fails with the wrapped
fetch error when the VERSION read fails, panics when the trimmed
content is empty, fails with the `strconv.Atoi` error when the content
minus its first character (whatever it is — the `v` prefix is never
verified) does not parse, and on any successful decode the parsed
integer is the resulting version. -/
theorem loadApp_version_stage_spec (C : ExtCodec) (f : Fetcher) (app0 : App) :
    (∀ e, f [PathJoin app0.name [FileVersion]] = .error e →
      loadApp C f app0 = .err (.generic (("get contents of ").toList ++
        goQuote (PathJoin app0.name [FileVersion]) ++ (": ").toList ++ e))) ∧
    (∀ vraw, f [PathJoin app0.name [FileVersion]] = .ok (.file (.ok vraw)) →
      TrimSpace vraw = [] → loadApp C f app0 = .panic sliceOOBMsg) ∧
    (∀ vraw vc vtail, f [PathJoin app0.name [FileVersion]] = .ok (.file (.ok vraw)) →
      TrimSpace vraw = vc :: vtail → Atoi vtail = none →
      loadApp C f app0 = .err (.generic (atoiErrMsg vtail))) ∧
    (∀ a, loadApp C f app0 = .ok a →
      ∃ vraw vc vtail, fileContent f (PathJoin app0.name [FileVersion]) = .ok vraw ∧
        TrimSpace vraw = vc :: vtail ∧ Atoi vtail = some a.version) := by
  refine ⟨fun e he => loadApp_fetch_error he,
    fun vraw h1 h2 => loadApp_empty_version h1 h2,
    fun vraw vc vtail h1 h2 h3 => loadApp_atoi_error h1 h2 h3,
    fun a ha => ?_⟩
  obtain ⟨vraw, vc, vtail, vi, h1, h2, h3, h4⟩ := loadApp_ok_version ha
  refine ⟨vraw, vc, vtail, h1, h2, ?_⟩
  rw [h4]
  exact h3

/-- Witness for C6 (amended): content `vabc` yields the Atoi error. -/
theorem loadApp_version_stage_spec_witness :
    TrimSpace (("vabc").toList) = 'v' :: ("abc").toList ∧
    loadApp specCodec vAbcFetcher (namedApp webName) =
      .err (.generic (atoiErrMsg (("abc").toList))) :=
  ⟨by decide,
   (loadApp_version_stage_spec specCodec vAbcFetcher (namedApp webName)).2.2.1
     (("vabc").toList) 'v' (("abc").toList) (by decide) (by decide) (by decide)⟩

/-- C7 counterexample: the error returned for malformed services.json
is the raw JSON error, whose message does not mention
`services.json`. -/
theorem loadApp_badJson_error_not_named :
    loadApp specCodec badJsonFetcher (namedApp webName) =
      .err (.generic (("unexpected end of JSON input").toList)) ∧
    ¬ ("services.json").toList <:+: ("unexpected end of JSON input").toList := by
  decide

/-- C7 (amended): a services.json file that exists but fails to
unmarshal aborts `loadApp` with the raw unmarshal error — returned
without path wrapping, so it does not name `services.json` unless the
codec's own message does — and no application value is returned. -/
theorem loadApp_services_raw_error (C : ExtCodec) (f : Fetcher) (app0 : App)
    (vraw : Str) (vc : Char) (vtail : Str) (vi : Int) (raw m : Str)
    (h1 : f [PathJoin app0.name [FileVersion]] = .ok (.file (.ok vraw)))
    (h2 : TrimSpace vraw = vc :: vtail) (h3 : Atoi vtail = some vi)
    (h4 : f [PathJoin app0.name [FileServices]] = .ok (.file (.ok raw)))
    (h5 : C.formationUnmarshal raw = .error m) :
    loadApp C f app0 = .err (.generic m) ∧ ∀ a, loadApp C f app0 ≠ .ok a := by
  have hmain : loadApp C f app0 = .err (.generic m) := by
    simp only [loadApp, fileContent_ok h1, h2, h3, decodeFile_raw_error h4 h5]
  exact ⟨hmain, fun a ha => by rw [hmain] at ha; exact GoResult.noConfusion ha⟩

/-- Witness for C7 (amended) on the malformed `{` content. -/
theorem loadApp_services_raw_error_witness :
    specCodec.formationUnmarshal (("\x7b").toList) =
      .error (("unexpected end of JSON input").toList) ∧
    loadApp specCodec badJsonFetcher (namedApp webName) =
      .err (.generic (("unexpected end of JSON input").toList)) :=
  ⟨by decide,
   (loadApp_services_raw_error specCodec badJsonFetcher (namedApp webName)
      (("v2").toList) 'v' (("2").toList) 2 (("\x7b").toList)
      (("unexpected end of JSON input").toList)
      (by decide) (by decide) (by decide) (by decide) (by decide)).1⟩

/-- C8: when the commit-log query succeeds, `Releases` yields one
release per commit in the query's order, each decoded with the fetcher
bound to that commit's SHA, carrying the commit message as description
and the committer date; any decode failure fails the whole
operation. -/
theorem Releases_spec (R : Remote) (C : ExtCodec) (s : Storage) (q : ReleasesQuery)
    (cs : List CommitMeta) (g : CommitMeta → App)
    (hl : R.listCommits s.ref (PathJoin s.basePath [q.app.name, FileVersion]) = .ok cs) :
    ((∀ c ∈ cs, loadApp C (storageFetcher R s c.sha) (namedApp q.app.name) = .ok (g c)) →
      Releases R C s q = .ok (cs.map fun c =>
        { app := g c, description := c.message, createdAt := some c.date })) ∧
    ((∃ c ∈ cs, ∀ a, loadApp C (storageFetcher R s c.sha) (namedApp q.app.name) ≠ .ok a) →
      ∀ l, Releases R C s q ≠ .ok l) := by
  constructor
  · intro h
    unfold Releases
    rw [hl]
    exact releasesLoop_ok R C s q.app.name cs g h
  · intro h l
    unfold Releases
    rw [hl]
    exact releasesLoop_fail R C s q.app.name cs h l

/-- Witness for C8 on a two-commit history (`shaA` newest first). -/
theorem Releases_spec_witness :
    (∀ c ∈ [commitA, commitB], loadApp specCodec (storageFetcher historyRemote sB c.sha)
      (namedApp webName) = .ok (g8 c)) ∧
    Releases historyRemote specCodec sB { app := namedApp webName } =
      .ok [{ app := historyApp 2, description := commitA.message, createdAt := some 200 },
           { app := historyApp 1, description := commitB.message, createdAt := some 100 }] :=
  ⟨by decide,
   (Releases_spec historyRemote specCodec sB { app := namedApp webName }
      [commitA, commitB] g8 (by decide)).1 (by decide)⟩

/-- C9: `AppsFind` returns the dedicated not-found error — a different
constructor than transport errors — exactly when the filtered listing
is empty, and otherwise hydrates the first listed match through
`loadApp`, ignoring the rest. -/
theorem AppsFind_spec (R : Remote) (C : ExtCodec) (s : Storage) (q : AppsQuery) :
    (Apps R s q = .ok [] →
      AppsFind R C s q = .err (.notFound (("app not found").toList))) ∧
    (∀ a rest, Apps R s q = .ok (a :: rest) →
      AppsFind R C s q = loadApp C (storageFetcher R s s.ref) a) ∧
    (∀ m m', GoErr.notFound m ≠ GoErr.generic m') := by
  refine ⟨fun h => ?_, fun a rest h => ?_, fun m m' h => GoErr.noConfusion h⟩
  · unfold AppsFind
    rw [h]
  · unfold AppsFind
    rw [h]

/-- Witness for C9: one matching directory, hydrated via the storage
fetcher at the configured ref. -/
theorem AppsFind_spec_witness :
    Apps registryRemote sB q9 = .ok [namedApp webName] ∧
    AppsFind registryRemote specCodec sB q9 =
      loadApp specCodec (storageFetcher registryRemote sB sB.ref) (namedApp webName) :=
  ⟨by decide,
   (AppsFind_spec registryRemote specCodec sB q9).2.1 (namedApp webName) [] (by decide)⟩

/-- C10: a VERSION file whose content trims to the empty string drives
the `[1:]` substring out of bounds: `loadApp` panics instead of
returning a decode error, so the substring step is only total when the
trimmed content is non-empty. -/
theorem loadApp_empty_version_panics :
    blankVersionFetcher [PathJoin webName [FileVersion]] =
      .ok (.file (.ok (("  ").toList))) ∧
    TrimSpace (("  ").toList) = [] ∧
    loadApp specCodec blankVersionFetcher (namedApp webName) = .panic sliceOOBMsg := by
  decide
